import Mathlib

/-!
Verification of the discrete Particle Swarm Optimization engine
(`particle_swarm_optimization.py`, `main.py`): the permutation
position/velocity algebra (`Sequence`, `PermutationList`), the particle
and swarm coordinator state machine, and the N-queens cost function.

Randomness is injected explicitly: `random.randrange` draws become a list
of naturals consumed one per loop iteration, and the random initial
permutations of the particles are passed to the constructor.
-/

namespace DPSO

/-- Python swap `aux = l[j]; l[j] = l[i]; l[i] = aux`, as performed both by
`Sequence.__add__` (lines 52-54) and by the recorded swap inside
`Sequence.__sub__` (lines 42-43). Out-of-range indices leave the list
unchanged (`List.set` is the identity out of range). -/
def swapAt2 (w : List Nat) (i j : Nat) : List Nat :=
  ((w.set i (w.getD j 0)).set j (w.getD i 0))

/-- `Sequence.__add__`: copy the sequence, then apply every transposition of
the permutation list in recorded order. -/
def seqAdd (w : List Nat) (v : List (Nat × Nat)) : List Nat :=
  v.foldl (fun s p => swapAt2 s p.1 p.2) w

/-- `PermutationList.add`: `OrderedDict.update({permutation: None})` appends a
new key at the end and leaves the position of an existing key unchanged
(the stored value is always `None`), so on the key sequence it is
append-if-absent. -/
def plAdd (l : List (Nat × Nat)) (p : Nat × Nat) : List (Nat × Nat) :=
  if p ∈ l then l else l ++ [p]

/-- The inner `for j in range(i+1, len)` search of `Sequence.__sub__`: the
first index `j > i` at which the working list holds the searched value. -/
def findJ (w : List Nat) (v : Nat) (i : Nat) : Option Nat :=
  (List.range w.length).find? (fun j => decide (i < j) && decide (w.getD j 0 = v))

/-- The `while self.list != other_list` loop of `Sequence.__sub__`.
`a` is `self.list` (the target), `w` the working copy of `other.list`,
`cs` the stream of `random.randrange(0, len(self.list))` draws (consumed
one per iteration, reduced mod the length), `acc` the permutation list
built so far. Returns `none` when the draw stream is exhausted before the
working copy reaches `a`. -/
def subLoop (a w : List Nat) (cs : List Nat) (acc : List (Nat × Nat)) :
    Option (List (Nat × Nat)) :=
  if w = a then some acc
  else
    match cs with
    | [] => none
    | c :: cs' =>
      if w.getD (c % a.length) 0 = a.getD (c % a.length) 0 then subLoop a w cs' acc
      else
        match findJ w (a.getD (c % a.length) 0) (c % a.length) with
        | none => subLoop a w cs' acc
        | some j =>
          subLoop a (swapAt2 w (c % a.length) j) cs' (plAdd acc (c % a.length, j))

/-- `Sequence.__sub__` (`self = a`, `other = b`) with injected randomness. -/
def seqSub (a b : List Nat) (cs : List Nat) : Option (List (Nat × Nat)) :=
  subLoop a b cs []

/-- Number of positions of the working copy `w` that match the target `a`
(the termination measure of the `difference` loop). -/
def matchCount (a w : List Nat) : Nat :=
  ((Finset.range a.length).filter (fun p => w.getD p 0 = a.getD p 0)).card

/-- Python's slice `l[0:n]` for an `int` `n` (negative `n` counts from the
end), as used by `PermutationList.__rmul__` for integer factors. -/
def pySlice0 {α : Type} (l : List α) (n : Int) : List α :=
  if 0 ≤ n then l.take n.toNat else l.take (l.length - (-n).toNat)

/-- Python's `round` (round half to even) on an exact rational. -/
def pyRound (q : ℚ) : Int :=
  if q - Int.floor q = 1 / 2 then
    (if 2 ∣ Int.floor q then Int.floor q else Int.floor q + 1)
  else round q

/-- `PermutationList.__rmul__` with an `int` argument: `self.keys()[0:n]`. -/
def rmulInt (d : List (Nat × Nat)) (n : Int) : List (Nat × Nat) :=
  pySlice0 d n

/-- The `ValueError` message raised by `PermutationList.__rmul__` for a float
factor outside `[0, 1]` (the `%.2f` formatting of the factor is elided). -/
def scaleErrMsg : String := "can't multiplie PermutationList by given factor"

/-- `PermutationList.__rmul__` with a `float` argument, the float modelled as
an exact rational: factors outside `[0, 1]` raise `ValueError`, otherwise
`self.keys()[0:round(n * len(self.keys()))]`. -/
def rmulFloat (d : List (Nat × Nat)) (r : ℚ) : Except String (List (Nat × Nat)) :=
  if r < 0 ∨ r > 1 then Except.error scaleErrMsg
  else Except.ok (d.take (pyRound (r * d.length)).toNat)

/-- `PermutationList.__rmul__` as a call on the object: result paired with
the object's key sequence after the call. The method never assigns
`self.p_list`, so the state component is returned unchanged. -/
def rmulFloatRun (d : List (Nat × Nat)) (r : ℚ) :
    Except String (List (Nat × Nat)) × List (Nat × Nat) :=
  (rmulFloat d r, d)

/-- `cost_function` of `main.py`: count ordered pairs `i ≠ j` with
`|Q_i - Q_j| == |i - j|`, halved by floor division. -/
def cost_function (x : List Int) : Nat :=
  (((List.range x.length).map (fun i =>
    ((List.range x.length).filter (fun j =>
      decide (i ≠ j) &&
        decide ((x.getD i 0 - x.getD j 0).natAbs = ((i : Int) - (j : Int)).natAbs))).length)).sum) / 2

/-- `Particle`: current position `x`, velocity `v` (a permutation list,
i.e. its key sequence), personal-best position `best` and value
`best_value` (`math.inf` modelled as `⊤` of `WithTop Int`; reported cost
values are integers). -/
structure Particle where
  x : List Nat
  v : List (Nat × Nat)
  best : List Nat
  best_value : WithTop Int
deriving DecidableEq, Repr

instance : Inhabited Particle := ⟨⟨[], [], [], ⊤⟩⟩

/-- The hyperparameter record `Param` of `main.py` (floats modelled as exact
rationals). `num_particles` is carried by the length of the injected list
of initial permutations. -/
structure Params where
  inertia_weight : ℚ
  cognitive_parameter : ℚ
  social_parameter : ℚ
deriving DecidableEq, Repr

/-- `ParticleSwarmOptimization` state: the unwrapped coefficients, the
global and iteration bests (`None` → `none`, `math.inf` → `⊤`), the
particles, and the cursor `i`. `gen` is a ghost counter of
`advance_generation` invocations, added only to state the round-cycling
property; it is not part of the source state and nothing reads it. -/
structure PSOState where
  w : ℚ
  phip : ℚ
  phig : ℚ
  best_global : Option (List Nat)
  best_global_value : WithTop Int
  best_iteration : Option (List Nat)
  best_iteration_value : WithTop Int
  particles : List Particle
  i : Nat
  gen : Nat
deriving DecidableEq, Repr

/-- `Particle.__init__` with the random shuffle injected as `x`: velocity is
the empty permutation list, `best` aliases the initial position, and
`best_value` starts at infinity. -/
def mkParticle (x : List Nat) : Particle :=
  { x := x, v := [], best := x, best_value := ⊤ }

/-- `ParticleSwarmOptimization.__init__` with the particles' random initial
permutations injected as `xs` (the constructor's `n` only sizes those
shuffles, and `hyperparams.num_particles` only counts them). -/
def mkPSO (hp : Params) (xs : List (List Nat)) : PSOState :=
  { w := hp.inertia_weight
    phip := hp.cognitive_parameter
    phig := hp.social_parameter
    best_global := none
    best_global_value := ⊤
    best_iteration := none
    best_iteration_value := ⊤
    particles := xs.map mkParticle
    i := 0
    gen := 0 }

/-- `get_best_position`. -/
def get_best_position (s : PSOState) : Option (List Nat) :=
  s.best_global

/-- `get_best_value`. -/
def get_best_value (s : PSOState) : WithTop Int :=
  s.best_global_value

/-- `get_position_to_evaluate`: `self.particles[self.i].x`. Pure. -/
def get_position_to_evaluate (s : PSOState) : List Nat :=
  (s.particles.getD s.i default).x

/-- `advance_generation`: for each particle, two fresh uniform draws `rp`,
`rg` are taken and discarded (the body after the `# TODO` comment uses
neither them nor the PSO coefficients), and the particle's position is
reassigned to `particle.x + particle.v`. The velocity is not modified.
The ghost counter `gen` records the invocation. -/
def advance_generation (s : PSOState) : PSOState :=
  { s with
    particles := s.particles.map (fun p => { p with x := seqAdd p.x p.v })
    gen := s.gen + 1 }

/-- First phase of `notify_evaluation` (lines 208-210): if the reported
value strictly improves on the cursor particle's personal best, set that
particle's `best` to its current position and `best_value` to the value. -/
def recordPersonal (s : PSOState) (value : Int) : PSOState :=
  let p := s.particles.getD s.i default
  if (value : WithTop Int) < p.best_value then
    { s with particles :=
        s.particles.set s.i { p with best := p.x, best_value := (value : WithTop Int) } }
  else s

/-- Second phase of `notify_evaluation` (lines 211-213): if the reported
value strictly improves on the iteration best, record the cursor
particle's current position and the value as the iteration best. -/
def recordIteration (s : PSOState) (value : Int) : PSOState :=
  if (value : WithTop Int) < s.best_iteration_value then
    { s with best_iteration := some (s.particles.getD s.i default).x,
             best_iteration_value := (value : WithTop Int) }
  else s

/-- Round-end commit of `notify_evaluation` (lines 217-219): if the
iteration best strictly improves on the global best, copy it into the
global best. -/
def commitGlobal (s : PSOState) : PSOState :=
  if s.best_iteration_value < s.best_global_value then
    { s with best_global := s.best_iteration,
             best_global_value := s.best_iteration_value }
  else s

/-- `notify_evaluation(value)`: record the personal and iteration bests on
strict improvement; when the cursor is at the last particle, reset it to
0, commit the iteration best into the global best on strict improvement,
and advance the generation; otherwise increment the cursor. The
iteration best is never reset. -/
def notify_evaluation (s : PSOState) (value : Int) : PSOState :=
  let s₂ := recordIteration (recordPersonal s value) value
  if s₂.i = s₂.particles.length - 1 then
    advance_generation (commitGlobal { s₂ with i := 0 })
  else { s₂ with i := s₂.i + 1 }

/-- One external call of the driving loop: `get_position_to_evaluate` is
pure, so only `notify_evaluation` transforms the state. -/
inductive Call where
  | getPos : Call
  | notify : Int → Call
deriving DecidableEq, Repr

/-- Effect of one call on the coordinator state. -/
def doCall (s : PSOState) : Call → PSOState
  | Call.getPos => s
  | Call.notify v => notify_evaluation s v

/-- Run an interleaving of `get_position_to_evaluate` / `notify_evaluation`
calls. -/
def runCalls (s : PSOState) (cs : List Call) : PSOState :=
  cs.foldl doCall s

/-- Run a sequence of `notify_evaluation` calls. -/
def runNotify (s : PSOState) (vals : List Int) : PSOState :=
  vals.foldl notify_evaluation s

/-- A concrete hyperparameter record (the values of `main.py`), used for
closed instances. -/
def hpMain : Params := ⟨7/10, 4/5, 9/10⟩

lemma getD_set_ne {α : Type} (l : List α) (n k : Nat) (a d : α) (h : k ≠ n) :
    (l.set n a).getD k d = l.getD k d := by
  simp [List.getD_eq_getElem?_getD, List.getElem?_set_ne (Ne.symm h)]

lemma getD_set_self {α : Type} (l : List α) (n : Nat) (a d : α) (h : n < l.length) :
    (l.set n a).getD n d = a := by
  simp [List.getD_eq_getElem?_getD, List.getElem?_set_eq_of_lt a h]

lemma getD_map_eq {α β : Type} (f : α → β) (l : List α) (n : Nat) (d : α) :
    (l.map f).getD n (f d) = f (l.getD n d) := by
  simp [List.getD_eq_getElem?_getD, List.getElem?_map]

lemma set_getD_self {α : Type} (l : List α) (n : Nat) (d : α) :
    l.set n (l.getD n d) = l := by
  induction l generalizing n with
  | nil => rfl
  | cons a t ih =>
    cases n with
    | zero => rfl
    | succ m =>
      show a :: t.set m (t.getD m d) = a :: t
      rw [ih]

lemma map_set_proj {α β : Type} (f : α → β) (l : List α) (n : Nat) (d : α) (a : α)
    (hfa : f a = f (l.getD n d)) : (l.set n a).map f = l.map f := by
  rw [List.map_set, hfa, ← getD_map_eq f l n d, set_getD_self]

@[simp] lemma recordPersonal_i (s : PSOState) (v : Int) :
    (recordPersonal s v).i = s.i := by
  simp only [recordPersonal]; split <;> rfl

@[simp] lemma recordPersonal_gen (s : PSOState) (v : Int) :
    (recordPersonal s v).gen = s.gen := by
  simp only [recordPersonal]; split <;> rfl

@[simp] lemma recordPersonal_best_global (s : PSOState) (v : Int) :
    (recordPersonal s v).best_global = s.best_global := by
  simp only [recordPersonal]; split <;> rfl

@[simp] lemma recordPersonal_best_global_value (s : PSOState) (v : Int) :
    (recordPersonal s v).best_global_value = s.best_global_value := by
  simp only [recordPersonal]; split <;> rfl

@[simp] lemma recordPersonal_best_iteration (s : PSOState) (v : Int) :
    (recordPersonal s v).best_iteration = s.best_iteration := by
  simp only [recordPersonal]; split <;> rfl

@[simp] lemma recordPersonal_best_iteration_value (s : PSOState) (v : Int) :
    (recordPersonal s v).best_iteration_value = s.best_iteration_value := by
  simp only [recordPersonal]; split <;> rfl

@[simp] lemma recordPersonal_length (s : PSOState) (v : Int) :
    (recordPersonal s v).particles.length = s.particles.length := by
  simp only [recordPersonal]; split <;> simp

@[simp] lemma recordIteration_particles (s : PSOState) (v : Int) :
    (recordIteration s v).particles = s.particles := by
  simp only [recordIteration]; split <;> rfl

@[simp] lemma recordIteration_i (s : PSOState) (v : Int) :
    (recordIteration s v).i = s.i := by
  simp only [recordIteration]; split <;> rfl

@[simp] lemma recordIteration_gen (s : PSOState) (v : Int) :
    (recordIteration s v).gen = s.gen := by
  simp only [recordIteration]; split <;> rfl

@[simp] lemma recordIteration_best_global (s : PSOState) (v : Int) :
    (recordIteration s v).best_global = s.best_global := by
  simp only [recordIteration]; split <;> rfl

@[simp] lemma recordIteration_best_global_value (s : PSOState) (v : Int) :
    (recordIteration s v).best_global_value = s.best_global_value := by
  simp only [recordIteration]; split <;> rfl

@[simp] lemma commitGlobal_particles (s : PSOState) :
    (commitGlobal s).particles = s.particles := by
  simp only [commitGlobal]; split <;> rfl

@[simp] lemma commitGlobal_i (s : PSOState) : (commitGlobal s).i = s.i := by
  simp only [commitGlobal]; split <;> rfl

@[simp] lemma commitGlobal_gen (s : PSOState) : (commitGlobal s).gen = s.gen := by
  simp only [commitGlobal]; split <;> rfl

@[simp] lemma commitGlobal_best_iteration (s : PSOState) :
    (commitGlobal s).best_iteration = s.best_iteration := by
  simp only [commitGlobal]; split <;> rfl

@[simp] lemma commitGlobal_best_iteration_value (s : PSOState) :
    (commitGlobal s).best_iteration_value = s.best_iteration_value := by
  simp only [commitGlobal]; split <;> rfl

@[simp] lemma advance_i (s : PSOState) : (advance_generation s).i = s.i := rfl

@[simp] lemma advance_gen (s : PSOState) :
    (advance_generation s).gen = s.gen + 1 := rfl

@[simp] lemma advance_best_global (s : PSOState) :
    (advance_generation s).best_global = s.best_global := rfl

@[simp] lemma advance_best_global_value (s : PSOState) :
    (advance_generation s).best_global_value = s.best_global_value := rfl

@[simp] lemma advance_best_iteration (s : PSOState) :
    (advance_generation s).best_iteration = s.best_iteration := rfl

@[simp] lemma advance_best_iteration_value (s : PSOState) :
    (advance_generation s).best_iteration_value = s.best_iteration_value := rfl

@[simp] lemma advance_length (s : PSOState) :
    (advance_generation s).particles.length = s.particles.length := by
  simp [advance_generation]

lemma advance_getD (s : PSOState) (k : Nat) :
    (advance_generation s).particles.getD k default =
      { s.particles.getD k default with
        x := seqAdd (s.particles.getD k default).x (s.particles.getD k default).v } := by
  have h := getD_map_eq (fun p => { p with x := seqAdd p.x p.v }) s.particles k default
  exact h

/-- Every particle's velocity is empty. -/
def allV (s : PSOState) : Prop := ∀ p ∈ s.particles, p.v = []

lemma allV_iff_map (s : PSOState) :
    allV s ↔ ∀ q ∈ s.particles.map Particle.v, q = [] := by
  constructor
  · intro h q hq
    obtain ⟨p, hp, rfl⟩ := List.mem_map.1 hq
    exact h p hp
  · intro h p hp
    exact h _ (List.mem_map_of_mem _ hp)

lemma allV_of_map_eq {s t : PSOState}
    (he : t.particles.map Particle.v = s.particles.map Particle.v)
    (h : allV s) : allV t := by
  rw [allV_iff_map, he, ← allV_iff_map]
  exact h

lemma recordPersonal_map_x (s : PSOState) (v : Int) :
    (recordPersonal s v).particles.map Particle.x = s.particles.map Particle.x := by
  simp only [recordPersonal]
  split
  · exact map_set_proj Particle.x s.particles s.i default _ rfl
  · rfl

lemma recordPersonal_map_v (s : PSOState) (v : Int) :
    (recordPersonal s v).particles.map Particle.v = s.particles.map Particle.v := by
  simp only [recordPersonal]
  split
  · exact map_set_proj Particle.v s.particles s.i default _ rfl
  · rfl

lemma advance_map_v (s : PSOState) :
    (advance_generation s).particles.map Particle.v = s.particles.map Particle.v := by
  simp only [advance_generation, List.map_map]
  exact List.map_congr_left (fun p _ => rfl)

lemma advance_map_x_of_allV (s : PSOState) (h : allV s) :
    (advance_generation s).particles.map Particle.x = s.particles.map Particle.x := by
  simp only [advance_generation, List.map_map]
  refine List.map_congr_left (fun p hp => ?_)
  show seqAdd p.x p.v = p.x
  rw [h p hp]
  rfl

lemma notify_map_v (s : PSOState) (val : Int) :
    (notify_evaluation s val).particles.map Particle.v = s.particles.map Particle.v := by
  simp only [notify_evaluation]
  split
  · rw [show (advance_generation (commitGlobal
        { recordIteration (recordPersonal s val) val with i := 0 })).particles.map Particle.v
        = _ from advance_map_v _]
    simp [recordPersonal_map_v]
  · simp [recordPersonal_map_v]

lemma notify_preserves_xv (s : PSOState) (val : Int) (h : allV s) :
    (notify_evaluation s val).particles.map Particle.x = s.particles.map Particle.x ∧
    allV (notify_evaluation s val) := by
  have hv := notify_map_v s val
  refine ⟨?_, allV_of_map_eq hv h⟩
  simp only [notify_evaluation]
  split
  · have hall : allV (commitGlobal { recordIteration (recordPersonal s val) val with i := 0 }) := by
      refine allV_of_map_eq ?_ h
      simp [recordPersonal_map_v]
    rw [advance_map_x_of_allV _ hall]
    simp [recordPersonal_map_x]
  · simp [recordPersonal_map_x]

lemma runCalls_preserves_xv :
    ∀ (cs : List Call) (s : PSOState), allV s →
      (runCalls s cs).particles.map Particle.x = s.particles.map Particle.x ∧
      allV (runCalls s cs)
  | [], s, h => ⟨rfl, h⟩
  | c :: cs', s, h => by
    cases c with
    | getPos => exact runCalls_preserves_xv cs' s h
    | notify v =>
      obtain ⟨h1, h2⟩ := notify_preserves_xv s v h
      obtain ⟨h3, h4⟩ := runCalls_preserves_xv cs' (notify_evaluation s v) h2
      exact ⟨h3.trans h1, h4⟩

/-- C2: across every interleaving of `get_position_to_evaluate` and
`notify_evaluation` calls on a freshly constructed coordinator, every
particle's velocity remains the empty delta, and every particle's
position list stays element-for-element equal to its initial random
permutation. -/
theorem velocities_empty_positions_unchanged (hp : Params) (xs : List (List Nat))
    (cs : List Call) :
    (runCalls (mkPSO hp xs) cs).particles.map Particle.x = xs ∧
    ∀ p ∈ (runCalls (mkPSO hp xs) cs).particles, p.v = [] := by
  have h0 : allV (mkPSO hp xs) := by
    intro p hp'
    simp only [mkPSO] at hp'
    obtain ⟨x, _, rfl⟩ := List.mem_map.1 hp'
    rfl
  obtain ⟨h1, h2⟩ := runCalls_preserves_xv cs (mkPSO hp xs) h0
  refine ⟨?_, h2⟩
  rw [h1]
  show List.map Particle.x (List.map mkParticle xs) = xs
  rw [List.map_map]
  exact (List.map_congr_left (fun a _ => rfl)).trans (List.map_id xs)

lemma notify_last (s : PSOState) (val : Int) (h : s.i = s.particles.length - 1) :
    (notify_evaluation s val).i = 0 ∧
    (notify_evaluation s val).gen = s.gen + 1 ∧
    (notify_evaluation s val).particles.length = s.particles.length := by
  simp [notify_evaluation, h]

lemma notify_not_last (s : PSOState) (val : Int) (h : ¬ s.i = s.particles.length - 1) :
    (notify_evaluation s val).i = s.i + 1 ∧
    (notify_evaluation s val).gen = s.gen ∧
    (notify_evaluation s val).particles.length = s.particles.length := by
  simp [notify_evaluation, h]

lemma runNotify_round (vals : List Int) :
    ∀ s : PSOState, 0 < s.particles.length → s.i < s.particles.length →
      vals.length = s.particles.length - s.i →
      (runNotify s vals).i = 0 ∧ (runNotify s vals).gen = s.gen + 1 := by
  induction vals with
  | nil =>
    intro s _ hi hlen
    exfalso
    simp only [List.length_nil] at hlen
    omega
  | cons v vs ih =>
    intro s hpos hi hlen
    simp only [List.length_cons] at hlen
    show (runNotify (notify_evaluation s v) vs).i = 0 ∧
      (runNotify (notify_evaluation s v) vs).gen = s.gen + 1
    by_cases hc : s.i = s.particles.length - 1
    · obtain ⟨h1, h2, _⟩ := notify_last s v hc
      have hvs : vs = [] := List.length_eq_zero.1 (by omega)
      subst hvs
      exact ⟨h1, h2⟩
    · obtain ⟨h1, h2, h3⟩ := notify_not_last s v hc
      obtain ⟨g1, g2⟩ := ih (notify_evaluation s v)
        (by rw [h3]; exact hpos) (by rw [h3, h1]; omega) (by rw [h3, h1]; omega)
      exact ⟨g1, by rw [g2, h2]⟩

/-- C6: starting from a freshly constructed coordinator, after exactly
`num_particles` calls to `notify_evaluation` the cursor `i` is again `0`
and `advance_generation` has been invoked exactly once. -/
theorem round_cycling (hp : Params) (xs : List (List Nat)) (vals : List Int)
    (hxs : xs ≠ []) (hlen : vals.length = xs.length) :
    (runNotify (mkPSO hp xs) vals).i = 0 ∧
    (runNotify (mkPSO hp xs) vals).gen = 1 := by
  have hpos : 0 < (mkPSO hp xs).particles.length := by
    simp only [mkPSO, List.length_map]
    exact List.length_pos.2 hxs
  have h := runNotify_round vals (mkPSO hp xs) hpos hpos
    (by simp [mkPSO, hlen])
  simpa [mkPSO] using h

/-- C6 witness at two particles and one full round of evaluations. -/
theorem round_cycling_witness :
    (runNotify (mkPSO hpMain [[1, 2], [2, 1]]) [0, 5]).i = 0 ∧
    (runNotify (mkPSO hpMain [[1, 2], [2, 1]]) [0, 5]).gen = 1 :=
  round_cycling hpMain [[1, 2], [2, 1]] [0, 5] (by decide) (by decide)

/-- C4: evaluation at the failing input. One particle at `[1,2]`: round 1
reports value `1` (the round completes, the generation advances), round 2
reports value `5`. The code never resets `best_iteration_value`, so after
round 2 it still holds round 1's value `1` instead of reflecting only the
following round's evaluation (`5`). -/
theorem iteration_best_not_reset :
    (runNotify (mkPSO hpMain [[1, 2]]) [1, 5]).best_iteration_value =
      ((1 : Int) : WithTop Int) ∧
    (runNotify (mkPSO hpMain [[1, 2]]) [1, 5]).best_iteration_value ≠
      ((5 : Int) : WithTop Int) := by
  decide

/-- C3: evaluation at the failing input. Two particles at `[1,2]` and
`[2,1]`; after one full round (values `0` and `5`, so `best_global`
becomes `[1,2]`, distinct from the second particle's position), the
generation advance has occurred (`gen = 1`), yet both velocities are
still the empty delta and both positions are unchanged: the coordinator
executed `x := x + v` with the never-recomputed velocity instead of the
three-term weighted recomputation. -/
theorem advance_keeps_velocity_and_position :
    (runNotify (mkPSO hpMain [[1, 2], [2, 1]]) [0, 5]).particles.map Particle.v =
      [[], []] ∧
    (runNotify (mkPSO hpMain [[1, 2], [2, 1]]) [0, 5]).particles.map Particle.x =
      [[1, 2], [2, 1]] ∧
    (runNotify (mkPSO hpMain [[1, 2], [2, 1]]) [0, 5]).best_global = some [1, 2] ∧
    (runNotify (mkPSO hpMain [[1, 2], [2, 1]]) [0, 5]).gen = 1 := by
  decide

/-- C7 counterexample: with two particles, the very first
`notify_evaluation` (value `3`) does not set the global best — it stays
`None` / infinity, because the global best is only committed at round
end. -/
theorem first_eval_counterexample :
    (notify_evaluation (mkPSO hpMain [[1, 2], [2, 1]]) 3).best_global = none ∧
    (notify_evaluation (mkPSO hpMain [[1, 2], [2, 1]]) 3).best_global_value ≠
      ((3 : Int) : WithTop Int) := by
  decide

lemma swapAt2_length (w : List Nat) (i j : Nat) :
    (swapAt2 w i j).length = w.length := by
  simp [swapAt2]

lemma getD_swapAt2_fst (w : List Nat) (i j : Nat) (hij : i ≠ j) (hi : i < w.length) :
    (swapAt2 w i j).getD i 0 = w.getD j 0 := by
  unfold swapAt2
  rw [getD_set_ne _ _ _ _ _ hij, getD_set_self _ _ _ _ hi]

lemma getD_swapAt2_other (w : List Nat) (i j p : Nat) (hpi : p ≠ i) (hpj : p ≠ j) :
    (swapAt2 w i j).getD p 0 = w.getD p 0 := by
  unfold swapAt2
  rw [getD_set_ne _ _ _ _ _ hpj, getD_set_ne _ _ _ _ _ hpi]

lemma findJ_some {w : List Nat} {v i j : Nat} (h : findJ w v i = some j) :
    i < j ∧ j < w.length ∧ w.getD j 0 = v := by
  unfold findJ at h
  have hp := List.find?_some h
  have hm := List.mem_of_find?_eq_some h
  simp only [Bool.and_eq_true, decide_eq_true_eq] at hp
  rw [List.mem_range] at hm
  exact ⟨hp.1, hm, hp.2⟩

lemma nodup_getD_inj {a : List Nat} (ha : a.Nodup) {i j : Nat}
    (hi : i < a.length) (hj : j < a.length) (h : a.getD i 0 = a.getD j 0) :
    i = j := by
  rw [List.getD_eq_getElem?_getD, List.getD_eq_getElem?_getD,
    List.getElem?_eq_getElem hi, List.getElem?_eq_getElem hj] at h
  simp only [Option.getD_some] at h
  exact (List.Nodup.getElem_inj_iff ha).1 h

lemma subLoop_sound {a : List Nat} (ha : a.Nodup) :
    ∀ (cs : List Nat) (w : List Nat) (acc : List (Nat × Nat)),
      w.length = a.length →
      (∀ p ∈ acc, w.getD p.1 0 = a.getD p.1 0) →
      ∀ v, subLoop a w cs acc = some v →
        ∃ t, v = acc ++ t ∧ seqAdd w t = a := by
  intro cs
  induction cs with
  | nil =>
    intro w acc _ _ v hv
    unfold subLoop at hv
    by_cases hw : w = a
    · rw [if_pos hw] at hv
      refine ⟨[], by simpa using (Option.some.inj hv).symm, ?_⟩
      simpa [seqAdd] using hw
    · rw [if_neg hw] at hv
      exact absurd hv (by simp)
  | cons c cs' ih =>
    intro w acc hlen hinv v hv
    unfold subLoop at hv
    by_cases hw : w = a
    · rw [if_pos hw] at hv
      refine ⟨[], by simpa using (Option.some.inj hv).symm, ?_⟩
      simpa [seqAdd] using hw
    · rw [if_neg hw] at hv
      replace hv : (if w.getD (c % a.length) 0 = a.getD (c % a.length) 0 then
          subLoop a w cs' acc
        else
          match findJ w (a.getD (c % a.length) 0) (c % a.length) with
          | none => subLoop a w cs' acc
          | some j =>
            subLoop a (swapAt2 w (c % a.length) j) cs' (plAdd acc (c % a.length, j)))
          = some v := hv
      by_cases hg : w.getD (c % a.length) 0 = a.getD (c % a.length) 0
      · rw [if_pos hg] at hv
        exact ih w acc hlen hinv v hv
      · rw [if_neg hg] at hv
        cases hfj : findJ w (a.getD (c % a.length) 0) (c % a.length) with
        | none =>
          rw [hfj] at hv
          exact ih w acc hlen hinv v hv
        | some j =>
          rw [hfj] at hv
          replace hv : subLoop a (swapAt2 w (c % a.length) j) cs'
              (plAdd acc (c % a.length, j)) = some v := hv
          obtain ⟨hij, hjlen, hwj⟩ := findJ_some hfj
          have hapos : 0 < a.length := by
            rcases Nat.eq_zero_or_pos a.length with h0 | h0
            · exact absurd (by
                rw [List.length_eq_zero.1 (hlen.trans h0), List.length_eq_zero.1 h0])
                hw
            · exact h0
          have hi : c % a.length < a.length := Nat.mod_lt _ hapos
          have hiw : c % a.length < w.length := by omega
          have hnotmem : (c % a.length, j) ∉ acc := fun hmem => hg (hinv _ hmem)
          have hpl : plAdd acc (c % a.length, j) = acc ++ [(c % a.length, j)] := by
            simp [plAdd, hnotmem]
          rw [hpl] at hv
          have hlen' : (swapAt2 w (c % a.length) j).length = a.length := by
            rw [swapAt2_length]; exact hlen
          have hinv' : ∀ p ∈ acc ++ [(c % a.length, j)],
              (swapAt2 w (c % a.length) j).getD p.1 0 = a.getD p.1 0 := by
            intro p hp
            rcases List.mem_append.1 hp with hpo | hpn
            · have hp1i : p.1 ≠ c % a.length := fun he => hg (he ▸ hinv p hpo)
              have hp1j : p.1 ≠ j := by
                intro he
                have h1 : w.getD j 0 = a.getD j 0 := by
                  rw [← he]; exact hinv p hpo
                have h2 : a.getD (c % a.length) 0 = a.getD j 0 := by
                  rw [← hwj, h1]
                have := nodup_getD_inj ha hi (by omega) h2
                omega
              rw [getD_swapAt2_other w (c % a.length) j p.1 hp1i hp1j]
              exact hinv p hpo
            · have hp1 : p = (c % a.length, j) := by simpa using hpn
              rw [hp1]
              show (swapAt2 w (c % a.length) j).getD (c % a.length) 0 =
                a.getD (c % a.length) 0
              rw [getD_swapAt2_fst w (c % a.length) j (by omega) hiw]
              exact hwj
          obtain ⟨t, ht1, ht2⟩ :=
            ih (swapAt2 w (c % a.length) j) (acc ++ [(c % a.length, j)]) hlen' hinv' v hv
          refine ⟨(c % a.length, j) :: t, ?_, ?_⟩
          · rw [ht1, List.append_assoc]
            rfl
          · exact ht2

lemma swap_strictly_increases_matchCount (a w : List Nat) (i j : Nat)
    (ha : a.Nodup) (hlen : w.length = a.length) (hij : i < j) (hj : j < w.length)
    (hmi : w.getD i 0 ≠ a.getD i 0) (hmj : w.getD j 0 = a.getD i 0) :
    matchCount a w < matchCount a (swapAt2 w i j) := by
  classical
  have hiT : i ∈ (Finset.range a.length).filter
      (fun p => (swapAt2 w i j).getD p 0 = a.getD p 0) := by
    refine Finset.mem_filter.2 ⟨Finset.mem_range.2 (by omega), ?_⟩
    rw [getD_swapAt2_fst w i j (by omega) (by omega)]
    exact hmj
  have hiS : i ∉ (Finset.range a.length).filter
      (fun p => w.getD p 0 = a.getD p 0) := by
    intro hmem
    exact hmi (Finset.mem_filter.1 hmem).2
  have hsub : insert i ((Finset.range a.length).filter
        (fun p => w.getD p 0 = a.getD p 0)) ⊆
      (Finset.range a.length).filter
        (fun p => (swapAt2 w i j).getD p 0 = a.getD p 0) := by
    intro p hp
    rcases Finset.mem_insert.1 hp with rfl | hpS
    · exact hiT
    · obtain ⟨hpr, hpm⟩ := Finset.mem_filter.1 hpS
      have hpi : p ≠ i := fun he => hmi (he ▸ hpm)
      have hpj : p ≠ j := by
        intro he
        rw [he] at hpm
        have h2 : a.getD i 0 = a.getD j 0 := by rw [← hmj, hpm]
        have := nodup_getD_inj ha (by omega) (by omega) h2
        omega
      refine Finset.mem_filter.2 ⟨hpr, ?_⟩
      rw [getD_swapAt2_other w i j p hpi hpj]
      exact hpm
  have hstep : ((Finset.range a.length).filter
        (fun p => w.getD p 0 = a.getD p 0)).card <
      (insert i ((Finset.range a.length).filter
        (fun p => w.getD p 0 = a.getD p 0))).card := by
    rw [Finset.card_insert_of_not_mem hiS]
    omega
  exact lt_of_lt_of_le hstep (Finset.card_le_card hsub)

/-- C1: for permutation states `a`, `b` of equal length (with `a`
duplicate-free, as permutations are), whenever the `difference` loop
terminates on a stream of random draws, applying the recorded delta to
`b` transposition by transposition in recorded order yields exactly `a`;
and every recorded swap of the loop strictly increases the number of
positions of the working copy that match `a` (the termination measure). -/
theorem difference_roundtrip_and_progress (a b : List Nat) (cs : List Nat)
    (ha : a.Nodup) (hlen : b.length = a.length) :
    (∀ v, seqSub a b cs = some v → seqAdd b v = a) ∧
    (∀ (w : List Nat) (i j : Nat), w.length = a.length → i < j → j < w.length →
      w.getD i 0 ≠ a.getD i 0 → w.getD j 0 = a.getD i 0 →
      matchCount a w < matchCount a (swapAt2 w i j)) := by
  constructor
  · intro v hv
    obtain ⟨t, ht1, ht2⟩ := subLoop_sound ha cs b [] hlen (by simp) v hv
    rw [List.nil_append] at ht1
    rw [ht1]
    exact ht2
  · intro w i j h1 h2 h3 h4 h5
    exact swap_strictly_increases_matchCount a w i j ha h1 h2 h3 h4 h5

/-- C1 witness: `a = [2,1]`, `b = [1,2]`, draw stream `[0]`; the recorded
delta is `[(0,1)]` and applying it to `b` restores `a`; the recorded
swap raises the match count from 0 to 2. -/
theorem difference_roundtrip_and_progress_witness :
    seqAdd [1, 2] [(0, 1)] = [2, 1] ∧
    matchCount [2, 1] [1, 2] < matchCount [2, 1] (swapAt2 [1, 2] 0 1) := by
  have h := difference_roundtrip_and_progress [2, 1] [1, 2] [0] (by decide) (by decide)
  exact ⟨h.1 [(0, 1)] (by decide),
    h.2 [1, 2] 0 1 (by decide) (by decide) (by decide) (by decide) (by decide)⟩

/-- C7 (amended): the very first `notify_evaluation` on a fresh coordinator
sets the first particle's personal best to its current position and the
reported value, and sets the iteration best likewise; the global best is
set to that same position and value only when the first particle is also
the last (a single-particle swarm, where the round completes); with more
than one particle it remains unset (`None` / infinity) until round end. -/
theorem first_eval_sets_bests (hp : Params) (x0 : List Nat)
    (rest : List (List Nat)) (val : Int) :
    (((notify_evaluation (mkPSO hp (x0 :: rest)) val).particles.getD 0 default).best = x0 ∧
      ((notify_evaluation (mkPSO hp (x0 :: rest)) val).particles.getD 0 default).best_value =
        (val : WithTop Int)) ∧
    (notify_evaluation (mkPSO hp (x0 :: rest)) val).best_iteration = some x0 ∧
    (notify_evaluation (mkPSO hp (x0 :: rest)) val).best_iteration_value =
      (val : WithTop Int) ∧
    (rest = [] →
      (notify_evaluation (mkPSO hp (x0 :: rest)) val).best_global = some x0 ∧
      (notify_evaluation (mkPSO hp (x0 :: rest)) val).best_global_value =
        (val : WithTop Int)) ∧
    (rest ≠ [] →
      (notify_evaluation (mkPSO hp (x0 :: rest)) val).best_global = none ∧
      (notify_evaluation (mkPSO hp (x0 :: rest)) val).best_global_value = ⊤) := by
  cases rest with
  | nil =>
    refine ⟨⟨?_, ?_⟩, ?_, ?_, ?_, ?_⟩
    · simp [notify_evaluation, recordPersonal, recordIteration, commitGlobal,
        advance_generation, mkPSO, mkParticle, seqAdd]
    · simp [notify_evaluation, recordPersonal, recordIteration, commitGlobal,
        advance_generation, mkPSO, mkParticle, seqAdd]
    · simp [notify_evaluation, recordPersonal, recordIteration, commitGlobal,
        advance_generation, mkPSO, mkParticle, seqAdd]
    · simp [notify_evaluation, recordPersonal, recordIteration, commitGlobal,
        advance_generation, mkPSO, mkParticle, seqAdd]
    · intro _
      constructor <;>
        simp [notify_evaluation, recordPersonal, recordIteration, commitGlobal,
          advance_generation, mkPSO, mkParticle, seqAdd]
    · intro heq
      exact absurd rfl heq
  | cons r rs =>
    refine ⟨⟨?_, ?_⟩, ?_, ?_, ?_, ?_⟩
    · simp [notify_evaluation, recordPersonal, recordIteration, commitGlobal,
        advance_generation, mkPSO, mkParticle, seqAdd]
    · simp [notify_evaluation, recordPersonal, recordIteration, commitGlobal,
        advance_generation, mkPSO, mkParticle, seqAdd]
    · simp [notify_evaluation, recordPersonal, recordIteration, commitGlobal,
        advance_generation, mkPSO, mkParticle, seqAdd]
    · simp [notify_evaluation, recordPersonal, recordIteration, commitGlobal,
        advance_generation, mkPSO, mkParticle, seqAdd]
    · intro heq
      exact absurd heq (List.cons_ne_nil r rs)
    · intro _
      constructor <;>
        simp [notify_evaluation, recordPersonal, recordIteration, commitGlobal,
          advance_generation, mkPSO, mkParticle, seqAdd]

/-- C7 witness: single-particle swarm (global set) and two-particle swarm
(global still unset). -/
theorem first_eval_sets_bests_witness :
    (notify_evaluation (mkPSO hpMain [[2, 1]]) 4).best_global = some [2, 1] ∧
    (notify_evaluation (mkPSO hpMain [[1, 2], [2, 1]]) 4).best_global = none :=
  ⟨((first_eval_sets_bests hpMain [2, 1] [] 4).2.2.2.1 rfl).1,
   ((first_eval_sets_bests hpMain [1, 2] [[2, 1]] 4).2.2.2.2 (by decide)).1⟩

lemma notify_global_value_le (s : PSOState) (val : Int) :
    (notify_evaluation s val).best_global_value ≤ s.best_global_value := by
  simp only [notify_evaluation]
  split
  · simp only [advance_best_global_value, commitGlobal]
    split
    · next h =>
      simp only at h ⊢
      exact le_of_lt (by simpa using h)
    · simp
  · simp

lemma notify_global_change_lt (s : PSOState) (val : Int)
    (hne : (notify_evaluation s val).best_global_value ≠ s.best_global_value) :
    (notify_evaluation s val).best_global_value < s.best_global_value :=
  lt_of_le_of_ne (notify_global_value_le s val) hne

lemma notify_iteration_value_le (s : PSOState) (val : Int) :
    (notify_evaluation s val).best_iteration_value ≤ s.best_iteration_value := by
  have hle : (recordIteration (recordPersonal s val) val).best_iteration_value ≤
      s.best_iteration_value := by
    simp only [recordIteration]
    split
    · next h =>
      simp only at h ⊢
      exact le_of_lt (by simpa using h)
    · simp
  simp only [notify_evaluation]
  split
  · simpa using hle
  · simpa using hle

lemma recordPersonal_getD_best_value_le (s : PSOState) (val : Int) (k : Nat) :
    ((recordPersonal s val).particles.getD k default).best_value ≤
      (s.particles.getD k default).best_value := by
  simp only [recordPersonal]
  split
  · next h =>
    by_cases hk : k = s.i
    · by_cases hlt : s.i < s.particles.length
      · rw [hk]
        simp only
        rw [getD_set_self _ _ _ _ hlt]
        exact le_of_lt (hk ▸ h)
      · simp only
        rw [List.set_eq_of_length_le (Nat.le_of_not_lt hlt)]
    · simp only
      rw [getD_set_ne _ _ _ _ _ hk]
  · simp

lemma notify_getD_best_value_le (s : PSOState) (val : Int) (k : Nat) :
    ((notify_evaluation s val).particles.getD k default).best_value ≤
      (s.particles.getD k default).best_value := by
  have hrp := recordPersonal_getD_best_value_le s val k
  simp only [notify_evaluation]
  split
  · rw [advance_getD]
    simpa using hrp
  · simpa using hrp

lemma runNotify_global_value_le (vals : List Int) :
    ∀ s : PSOState, (runNotify s vals).best_global_value ≤ s.best_global_value := by
  induction vals with
  | nil => intro s; exact le_refl _
  | cons v vs ih =>
    intro s
    exact le_trans (ih (notify_evaluation s v)) (notify_global_value_le s v)

lemma runNotify_iteration_value_le (vals : List Int) :
    ∀ s : PSOState, (runNotify s vals).best_iteration_value ≤ s.best_iteration_value := by
  induction vals with
  | nil => intro s; exact le_refl _
  | cons v vs ih =>
    intro s
    exact le_trans (ih (notify_evaluation s v)) (notify_iteration_value_le s v)

lemma runNotify_getD_best_value_le (vals : List Int) :
    ∀ (s : PSOState) (k : Nat),
      ((runNotify s vals).particles.getD k default).best_value ≤
        (s.particles.getD k default).best_value := by
  induction vals with
  | nil => intro s k; exact le_refl _
  | cons v vs ih =>
    intro s k
    exact le_trans (ih (notify_evaluation s v) k) (notify_getD_best_value_le s v k)

lemma notify_tie_personal (s : PSOState) (val : Int)
    (h : (val : WithTop Int) = (s.particles.getD s.i default).best_value) :
    ((notify_evaluation s val).particles.getD s.i default).best =
      (s.particles.getD s.i default).best ∧
    ((notify_evaluation s val).particles.getD s.i default).best_value =
      (s.particles.getD s.i default).best_value := by
  have hrp : (recordPersonal s val).particles = s.particles := by
    simp only [recordPersonal]
    rw [if_neg]
    exact h ▸ lt_irrefl _
  simp only [notify_evaluation]
  split
  · rw [advance_getD]
    simp [hrp]
  · simp [hrp]

lemma notify_tie_iteration (s : PSOState) (val : Int)
    (h : (val : WithTop Int) = s.best_iteration_value) :
    (notify_evaluation s val).best_iteration = s.best_iteration ∧
    (notify_evaluation s val).best_iteration_value = s.best_iteration_value := by
  have hri : recordIteration (recordPersonal s val) val = recordPersonal s val := by
    simp only [recordIteration]
    rw [if_neg]
    rw [recordPersonal_best_iteration_value]
    exact h ▸ lt_irrefl _
  simp only [notify_evaluation, hri]
  split
  · simp
  · simp

/-- C5 counterexample: two particles; after the run `[5, 5, 3]` the stored
global-best value is `5` and the reported value `5` ties it, yet the next
`notify_evaluation 5` changes the global best (the round-end commit
publishes the strictly better iteration value `3` recorded earlier in the
round), so a reported tie does not leave the stored global best
unchanged. -/
theorem tie_changes_global_counterexample :
    ((5 : Int) : WithTop Int) =
      (runNotify (mkPSO hpMain [[1, 2], [2, 1]]) [5, 5, 3]).best_global_value ∧
    (notify_evaluation (runNotify (mkPSO hpMain [[1, 2], [2, 1]]) [5, 5, 3]) 5).best_global_value ≠
      (runNotify (mkPSO hpMain [[1, 2], [2, 1]]) [5, 5, 3]).best_global_value := by
  decide

/-- C5 (amended): across any sequence of `notify_evaluation` calls the
personal-best, iteration-best and global-best values are non-increasing;
a reported value equal to the cursor particle's stored personal best
leaves that particle's best position and value unchanged, and one equal
to the stored iteration best leaves the iteration best unchanged; the
global best is never overwritten by a tie: whenever its value changes
during a call it strictly decreases (the change being the round-end
commit of a strictly better iteration value). -/
theorem best_values_monotone_ties_no_overwrite (s : PSOState) (vals : List Int)
    (val : Int) :
    ((runNotify s vals).best_global_value ≤ s.best_global_value ∧
     (runNotify s vals).best_iteration_value ≤ s.best_iteration_value ∧
     ∀ k, ((runNotify s vals).particles.getD k default).best_value ≤
       (s.particles.getD k default).best_value) ∧
    ((val : WithTop Int) = (s.particles.getD s.i default).best_value →
      ((notify_evaluation s val).particles.getD s.i default).best =
        (s.particles.getD s.i default).best ∧
      ((notify_evaluation s val).particles.getD s.i default).best_value =
        (s.particles.getD s.i default).best_value) ∧
    ((val : WithTop Int) = s.best_iteration_value →
      (notify_evaluation s val).best_iteration = s.best_iteration ∧
      (notify_evaluation s val).best_iteration_value = s.best_iteration_value) ∧
    ((notify_evaluation s val).best_global_value ≠ s.best_global_value →
      (notify_evaluation s val).best_global_value < s.best_global_value) :=
  ⟨⟨runNotify_global_value_le vals s, runNotify_iteration_value_le vals s,
    runNotify_getD_best_value_le vals s⟩,
   notify_tie_personal s val, notify_tie_iteration s val,
   notify_global_change_lt s val⟩

/-- C5 witness: a single-particle coordinator after one evaluation of value
`4`; a further evaluation can only lower the global best, and a reported
tie of `4` leaves the iteration best unchanged. -/
theorem best_values_monotone_ties_no_overwrite_witness :
    (runNotify (runNotify (mkPSO hpMain [[1, 2]]) [4]) [7]).best_global_value ≤
      (runNotify (mkPSO hpMain [[1, 2]]) [4]).best_global_value ∧
    (notify_evaluation (runNotify (mkPSO hpMain [[1, 2]]) [4]) 4).best_iteration =
      (runNotify (mkPSO hpMain [[1, 2]]) [4]).best_iteration := by
  have h := best_values_monotone_ties_no_overwrite
    (runNotify (mkPSO hpMain [[1, 2]]) [4]) [7] 4
  exact ⟨h.1.1, (h.2.2.1 (by decide)).1⟩

/-- C10 counterexample: the cost function does not return `3` on
`[1,2,3,4]`; in the identity-like permutation every one of the six
unordered pairs of queens conflicts diagonally, so it returns `6`. -/
theorem cost_reference_counterexample :
    ¬ (cost_function [1, 2, 3, 4] = 3 ∧ cost_function [2, 4, 1, 3] = 0) := by
  decide

/-- C10 (amended): the cost function, counting unordered pairs `i ≠ j` with
`|Q_i - Q_j| = |i - j|`, returns `6` for `[1,2,3,4]` and `0` for
`[2,4,1,3]`. -/
theorem cost_reference_values :
    cost_function [1, 2, 3, 4] = 6 ∧ cost_function [2, 4, 1, 3] = 0 := by
  decide

/-- C8: scaling a delta by an integer `k` with `0 ≤ k ≤ len d` keeps exactly
the first `k` transpositions in order; scaling by the real factor `0.0`
yields the empty delta and by `1.0` all of `d` in order. -/
theorem scale_truncation (d : List (Nat × Nat)) (k : Nat) (hk : k ≤ d.length) :
    (rmulInt d (k : Int) = d.take k ∧ (rmulInt d (k : Int)).length = k) ∧
    rmulFloat d 0 = Except.ok [] ∧ rmulFloat d 1 = Except.ok d := by
  refine ⟨⟨?_, ?_⟩, ?_, ?_⟩
  · simp [rmulInt, pySlice0]
  · simp [rmulInt, pySlice0, hk]
  · norm_num [rmulFloat, pyRound]
  · norm_num [rmulFloat, pyRound, List.take_length]

/-- C8 witness at `d = [(0,1),(1,2)]`, `k = 1`. -/
theorem scale_truncation_witness :
    (rmulInt [(0, 1), (1, 2)] (1 : Int) = [(0, 1)] ∧
      (rmulInt [(0, 1), (1, 2)] (1 : Int)).length = 1) ∧
    rmulFloat [(0, 1), (1, 2)] 0 = Except.ok [] ∧
    rmulFloat [(0, 1), (1, 2)] 1 = Except.ok [(0, 1), (1, 2)] := by
  have h := scale_truncation [(0, 1), (1, 2)] 1 (by decide)
  simpa using h

/-- C9: scaling a delta by a real factor outside `[0,1]` fails with the
`ValueError`, and the call leaves the delta's stored transposition
sequence unchanged (the method performs no assignment to `self.p_list`). -/
theorem scale_out_of_range_error (d : List (Nat × Nat)) (r : ℚ)
    (h : r < 0 ∨ 1 < r) :
    rmulFloatRun d r = (Except.error scaleErrMsg, d) := by
  have : r < 0 ∨ r > 1 := h
  simp [rmulFloatRun, rmulFloat, this]

/-- C9 witness at `d = [(0,1)]`, `r = 2`. -/
theorem scale_out_of_range_error_witness :
    rmulFloatRun [(0, 1)] 2 = (Except.error scaleErrMsg, [(0, 1)]) :=
  scale_out_of_range_error [(0, 1)] 2 (Or.inr (by norm_num))

end DPSO
